import Mathlib

/-!
Verification of the hoa-js/bodyparser middleware against its specification.

The JavaScript source (src/bodyparser.js) is shallowly embedded below:
pure helpers (mergeMimes, parseLimit, the form-aggregation loop of
parseFormFromBlob, methodShouldParse, matchTypes) become Lean functions on
the corresponding data; the middleware returned by bodyParser becomes a
function from a request context to an outcome record that captures the final
context, whether next() was invoked, which errors the configured onError
callback received, and what exception (ctx.throw or an uncaught error)
escaped.  JavaScript numbers are modelled as exact rationals, JavaScript
values of heterogeneous arrays as small sum types, and the platform
primitives the code calls (JSON.parse, Request blob reading) as explicit
parameters or request fields, since they are not part of the repository.
-/

set_option autoImplicit false

namespace Bodyparser

/-- Body formats supported by the middleware: the keys json, form, text of
the BASE_MIME constant. -/
inductive Format where
  | json
  | form
  | text
deriving DecidableEq

/-- Built-in MIME type lists: the BASE_MIME constant of the source. -/
def BASE_MIME : Format → List String
  | .json =>
      ["application/json", "application/json-patch+json",
       "application/vnd.api+json", "application/csp-report",
       "application/reports+json", "application/scim+json"]
  | .form => ["application/x-www-form-urlencoded"]
  | .text => ["text/plain"]

/-- Whitespace as matched by the \s class and by String.prototype.trim
(ASCII portion; the strings at stake here are ASCII). -/
def isJsSpace (c : Char) : Bool := c.isWhitespace

/-- Model of String.prototype.trim on the character list: whitespace is
stripped from both ends. -/
def trimChars (cs : List Char) : List Char :=
  ((cs.dropWhile isJsSpace).reverse.dropWhile isJsSpace).reverse

/-- Model of String.prototype.toLowerCase, character-wise (the ASCII
portion, which covers every MIME type and limit string at stake). -/
def lowerChars (cs : List Char) : List Char := cs.map Char.toLower

/-- String form of lowerChars, for the MIME registries. -/
def jsLower (s : String) : String := String.mk (lowerChars s.toList)

/-- Model of String.prototype.toUpperCase, character-wise (ASCII). -/
def jsUpper (s : String) : String := String.mk (s.toList.map Char.toUpper)

/-- Entry of a user-supplied extendTypes list.  JavaScript arrays are
heterogeneous, so an entry is either a string or a value of some other type
(null, number, ...), which the code filters out. -/
inductive ExtraEntry where
  | str (s : String)
  | nonstr
deriving DecidableEq

/-- Insertion into a JavaScript Set, modelled on lists: insertion order is
preserved and duplicates are dropped, as Array.from(set) observes. -/
def setAdd (l : List String) (s : String) : List String :=
  if s ∈ l then l else l ++ [s]

/-- Step of the extendTypes loop in mergeMimes: an entry is added, in lower
case, only when it is a non-empty string (source: if typeof t === string
and t is truthy, set.add(t.toLowerCase())). -/
def mergeStep (acc : List String) (e : ExtraEntry) : List String :=
  match e with
  | .str s => if s = "" then acc else setAdd acc (jsLower s)
  | .nonstr => acc

/-- Model of mergeMimes: the base list is lower-cased into the Set first,
then the extra entries that pass the string filter.  A missing extendTypes
entry or a non-array value is modelled as none (Array.isArray fails). -/
def mergeMimes (base : List String) (extra : Option (List ExtraEntry)) :
    List String :=
  let l1 := base.foldl (fun acc t => setAdd acc (jsLower t)) []
  match extra with
  | none => l1
  | some ex => ex.foldl mergeStep l1

/-- Input to parseLimit, mirroring the JavaScript value space: null or
undefined, a finite number (modelled as an exact rational), a string, or a
value of any other type, carrying its typeof name for the error message. -/
inductive LimitInput where
  | nullv
  | num (q : ℚ)
  | str (s : String)
  | other (tname : String)

/-- Result of parseLimit: Infinity (no bound) or a finite byte count. -/
inductive ByteLim where
  | inf
  | fin (q : ℚ)
deriving DecidableEq

/-- Kind tag for the Error values the code creates, paired below with the
message the code puts in the Error. -/
inductive ErrKind where
  | oversize
  | jsonSyntax
  | readErr
  | invalidLimit
  | unsupportedLimit
deriving DecidableEq

/-- Error value: kind tag plus the message string the code builds. -/
structure Err where
  kind : ErrKind
  msg : String
deriving DecidableEq

/-- Numeric value of a digit string, most significant digit first. -/
def digitsVal (ds : List Char) : Nat :=
  ds.foldl (fun a c => 10 * a + (c.toNat - 48)) 0

/-- Exact decimal value of an integer digit part and a fractional digit
part, the value parseFloat reads off the matched number. -/
def decVal (ip fp : List Char) : ℚ :=
  (digitsVal ip : ℚ) + (digitsVal fp : ℚ) / (10 ^ fp.length)

/-- Multiplier of a unit suffix: the regex group (b|kb|mb|gb)? after
lower-casing, with an absent unit meaning bytes. -/
def unitMult (u : List Char) : Option Nat :=
  if u = [] then some 1
  else if u = ['b'] then some 1
  else if u = ['k', 'b'] then some 1024
  else if u = ['m', 'b'] then some (1024 ^ 2)
  else if u = ['g', 'b'] then some (1024 ^ 3)
  else none

/-- Tail of the regex match after the digits: optional whitespace, then an
optional unit, then the end of the string.  Returns the digit parts and
the multiplier on a match. -/
def finishLimit (ip fp rest : List Char) :
    Option (List Char × List Char × Nat) :=
  match unitMult (rest.dropWhile isJsSpace) with
  | some m => some (ip, fp, m)
  | none => none

/-- Core of the regex of parseLimit on the trimmed, lower-cased character
list: digits, an optional dot-and-digits fraction, optional whitespace and
an optional unit, anchored on both sides. -/
def matchLimit (cs : List Char) : Option (List Char × List Char × Nat) :=
  let ip := cs.takeWhile Char.isDigit
  let r1 := cs.dropWhile Char.isDigit
  if ip = [] then none
  else if r1.head? = some '.' then
    let t := r1.tail
    let fp := t.takeWhile Char.isDigit
    if fp = [] then none
    else finishLimit ip fp (t.dropWhile Char.isDigit)
  else finishLimit ip [] r1

/-- Byte count of a matched limit string: the floor of the decimal value
times the multiplier, computed on naturals.  The lemma bytesOf_eq_floor
below identifies it with the rational floor of decVal times the
multiplier, which is what Math.floor(n * mult) computes. -/
def bytesOf (ip fp : List Char) (m : Nat) : Nat :=
  (digitsVal ip * 10 ^ fp.length + digitsVal fp) * m / 10 ^ fp.length

/-- Model of parseLimit: null or undefined yields Infinity, a finite number
is returned as-is, a string is trimmed, lower-cased and matched against the
size pattern with the byte count floored, and any other type is rejected.
The source computes the product with float arithmetic; the model computes
it exactly. -/
def parseLimit : LimitInput → Except Err ByteLim
  | .nullv => .ok .inf
  | .num q => .ok (.fin q)
  | .str s =>
    match matchLimit (lowerChars (trimChars s.toList)) with
    | some (ip, fp, m) => .ok (.fin (bytesOf ip fp m))
    | none => .error ⟨.invalidLimit, "Invalid limit: " ++ s⟩
  | .other tname => .error ⟨.unsupportedLimit, "Unsupported limit type: " ++ tname⟩

/-- Comparison size > limit performed by each decoder; Infinity is never
exceeded. -/
def sizeExceeds (size : Nat) : ByteLim → Bool
  | .inf => false
  | .fin q => decide (q < (size : ℚ))

/-- Value slot of the form mapping: a scalar string, or an ordered list of
strings once the key has repeated. -/
inductive FormValue where
  | str (s : String)
  | arr (l : List String)
deriving DecidableEq

/-- Aggregation step of the parseFormFromBlob loop for one key-value pair:
an undefined slot receives the scalar, a scalar slot becomes a two-element
list, a list slot is appended to in place. -/
def addEntry : List (String × FormValue) → String → String →
    List (String × FormValue)
  | [], k, v => [(k, .str v)]
  | (k0, fv) :: rest, k, v =>
    if k0 = k then
      (match fv with
       | .str s => (k0, FormValue.arr [s, v])
       | .arr l => (k0, FormValue.arr (l ++ [v]))) :: rest
    else (k0, fv) :: addEntry rest k v

/-- Whole aggregation loop of parseFormFromBlob over the entries stream.
The association list stores the entries in property-creation order, which
is what obj[k] reads and writes; the order in which a JavaScript object
ENUMERATES its keys is not the list order but the ECMAScript reordering
that moves array-index keys to the front, modelled below by enumKeys. -/
def aggregate (es : List (String × String)) : List (String × FormValue) :=
  es.foldl (fun acc e => addEntry acc e.1 e.2) []

/-- Own-property read obj[k] on the result object.  The object is created
with Object.create(null), so the read sees exactly the entries the loop
stored and nothing inherited; the prototype-less object is therefore a pure
association list. -/
def lookupFV : List (String × FormValue) → String → Option FormValue
  | [], _ => none
  | (k0, fv) :: rest, k => if k0 = k then some fv else lookupFV rest k

/-- Value of a hexadecimal digit, for percent decoding. -/
def hexVal (c : Char) : Option Nat :=
  if '0' ≤ c ∧ c ≤ '9' then some (c.toNat - 48)
  else if 'a' ≤ c ∧ c ≤ 'f' then some (c.toNat - 87)
  else if 'A' ≤ c ∧ c ≤ 'F' then some (c.toNat - 55)
  else none

/-- Percent- and plus-decoding of one urlencoded component, character-wise.
URLSearchParams decodes at byte level and UTF-8-decodes afterwards; the
character-wise model agrees with it on ASCII data. -/
def pctDecode : List Char → List Char
  | [] => []
  | '%' :: a :: b :: rest =>
    match hexVal a, hexVal b with
    | some x, some y => Char.ofNat (16 * x + y) :: pctDecode rest
    | _, _ => '%' :: pctDecode (a :: b :: rest)
  | '+' :: rest => ' ' :: pctDecode rest
  | c :: rest => c :: pctDecode rest

/-- Split of one ampersand-separated segment at its first equals sign; a
segment without one is a name with an empty value.  Both halves are then
percent-decoded. -/
def pairOfSegment (seg : List Char) : String × String :=
  let k := seg.takeWhile (fun c => c ≠ '=')
  let r := seg.dropWhile (fun c => c ≠ '=')
  (String.mk (pctDecode k), String.mk (pctDecode r.tail))

/-- Accumulating split on ampersands. -/
def splitAmpAux : List Char → List Char → List (List Char)
  | [], cur => [cur.reverse]
  | c :: rest, cur =>
    if c = '&' then cur.reverse :: splitAmpAux rest []
    else splitAmpAux rest (c :: cur)

/-- Split of the whole body on ampersands. -/
def splitAmp (cs : List Char) : List (List Char) := splitAmpAux cs []

/-- Entry stream of new URLSearchParams(text): split on ampersands, skip
empty segments, split each segment at its first equals sign and decode both
halves.  URLSearchParams is a platform primitive; this follows its
specified application/x-www-form-urlencoded parsing. -/
def urlencodedParse (s : String) : List (String × String) :=
  (splitAmp s.toList).filterMap fun seg =>
    if seg = [] then none else some (pairOfSegment seg)

/-- JSON values as produced by JSON.parse (any JSON type, not only
objects); numbers are modelled as exact rationals. -/
inductive Json where
  | nullv
  | bool (b : Bool)
  | num (q : ℚ)
  | str (s : String)
  | arr (l : List Json)
  | obj (l : List (String × Json))

/-- Values the middleware can place into ctx.req.body: undefined (what a
handled decode failure returns), a JSON value, a form mapping, a text body,
or an arbitrary other value some earlier stage stored. -/
inductive JSVal where
  | undef
  | jsonV (j : Json)
  | formV (l : List (String × FormValue))
  | textV (s : String)
  | other (n : Nat)

/-- Content of the ctx.req.body slot: the unread raw ReadableStream marker,
or a JavaScript value (possibly undefined). -/
inductive BodySlot where
  | stream
  | val (v : JSVal)

/-- Body blob obtained from a completed read: its declared byte size and
the text it decodes to. -/
structure Blob where
  size : Nat
  text : String
deriving DecidableEq

/-- Request view consumed by the middleware: method, derived content-type
(empty string when absent), the current body slot, and the result the body
read produces in clone mode (ctx.request.clone().blob()) and in consume
mode (ctx.req.blob()), each either a blob or a rejection message. -/
structure Ctx where
  method : String
  ctype : String
  body : BodySlot
  cloneRead : Except String Blob
  consumeRead : Except String Blob

/-- Exception escaping the middleware: a ctx.throw abort carrying status,
message and the original error as cause, or an uncaught plain error (what
a parseLimit failure propagates as). -/
inductive Thrown where
  | ctxThrow (status : Nat) (msg : String) (cause : Err)
  | uncaught (e : Err)

/-- Merged configuration, the result of spreading user options over the
defaults.  Option-typed fields model explicitly-undefined or non-array
values; onError is the configured callback, which may mutate the context. -/
structure Options where
  enableTypes : Option (List Format)
  parsedMethods : Option (List String)
  formLimit : LimitInput
  jsonLimit : LimitInput
  textLimit : LimitInput
  extendTypes : Format → Option (List ExtraEntry)
  onError : Option (Err → Ctx → Ctx)
  useClone : Bool

/-- Per-format MIME registry built once from the configuration. -/
def mimeTypes (opts : Options) (fmt : Format) : List String :=
  mergeMimes (BASE_MIME fmt) (opts.extendTypes fmt)

/-- Model of isEnabled: Array.isArray(opts.enableTypes) and membership. -/
def isEnabled (opts : Options) (fmt : Format) : Bool :=
  match opts.enableTypes with
  | none => false
  | some l => decide (fmt ∈ l)

/-- Model of methodShouldParse: the request method is upper-cased and
looked up verbatim in the configured list; a missing list yields false via
optional chaining. -/
def methodShouldParse (opts : Options) (method : String) : Bool :=
  match opts.parsedMethods with
  | none => false
  | some l => decide (jsUpper method ∈ l)

/-- Model of matchTypes: the content-type must be truthy (non-empty) and an
exact member of the registry for the format. -/
def matchTypes (opts : Options) (ct : String) (fmt : Format) : Bool :=
  decide (ct ≠ "") && decide (ct ∈ mimeTypes opts fmt)

/-- Dispatch chain of hoaBodyParser: json is tried first, then form, then
text, each gated on being enabled and matching. -/
def chooseFormat (opts : Options) (ct : String) : Option Format :=
  if isEnabled opts .json && matchTypes opts ct .json then some .json
  else if isEnabled opts .form && matchTypes opts ct .form then some .form
  else if isEnabled opts .text && matchTypes opts ct .text then some .text
  else none

/-- Skip guard on the body slot: skip when the body is defined and is not a
ReadableStream, i.e. a previous stage already stored a real value. -/
def bodyPreset : BodySlot → Bool
  | .stream => false
  | .val .undef => false
  | .val _ => true

/-- Body read selected by the useClone option. -/
def blobOf (opts : Options) (ctx : Ctx) : Except String Blob :=
  if opts.useClone then ctx.cloneRead else ctx.consumeRead

/-- Effect of one throwOrHandle call: the context after it (the callback
may mutate it), the errors handed to the callback, and the exception it
raised if no callback is configured. -/
structure THRes where
  ctx : Ctx
  calls : List Err
  thrown : Option Thrown

/-- Model of throwOrHandle: a configured callback receives the error and
the context and nothing is raised; otherwise ctx.throw raises the status,
the message of the error, and the error itself as cause. -/
def throwOrHandle (opts : Options) (ctx : Ctx) (err : Err) (status : Nat) :
    THRes :=
  match opts.onError with
  | some f => ⟨f err ctx, [err], none⟩
  | none => ⟨ctx, [], some (.ctxThrow status err.msg err)⟩

/-- Result of one decoder call: context after it, callback calls, and
either an exception that propagates or the returned value, which is
undefined when throwOrHandle handled an error and returned. -/
structure DecodeRes where
  ctx : Ctx
  calls : List Err
  out : Except Thrown JSVal

/-- Return path of a decoder ending in return throwOrHandle(...): a raised
exception propagates; otherwise the decoder returns undefined. -/
def handledOr (r : THRes) : DecodeRes :=
  match r.thrown with
  | some t => ⟨r.ctx, r.calls, .error t⟩
  | none => ⟨r.ctx, r.calls, .ok .undef⟩

/-- Model of parseJsonFromBlob: parse the limit (a failure there is an
uncaught exception), reject an oversize body with status 413 through the
funnel, then JSON-parse the text, routing a syntax error through the funnel
with status 400.  The platform JSON.parse is the parameter jp. -/
def parseJsonFromBlob (opts : Options) (jp : String → Except String Json)
    (blob : Blob) (ctx : Ctx) : DecodeRes :=
  match parseLimit opts.jsonLimit with
  | .error e => ⟨ctx, [], .error (.uncaught e)⟩
  | .ok lim =>
    if sizeExceeds blob.size lim then
      handledOr (throwOrHandle opts ctx
        ⟨.oversize, "Request body too large for JSON"⟩ 413)
    else
      match jp blob.text with
      | .ok j => ⟨ctx, [], .ok (.jsonV j)⟩
      | .error msg => handledOr (throwOrHandle opts ctx ⟨.jsonSyntax, msg⟩ 400)

/-- Model of parseFormFromBlob: parse the limit, reject oversize with 413,
otherwise aggregate the URLSearchParams entries of the text. -/
def parseFormFromBlob (opts : Options) (blob : Blob) (ctx : Ctx) : DecodeRes :=
  match parseLimit opts.formLimit with
  | .error e => ⟨ctx, [], .error (.uncaught e)⟩
  | .ok lim =>
    if sizeExceeds blob.size lim then
      handledOr (throwOrHandle opts ctx
        ⟨.oversize, "Request body too large for form"⟩ 413)
    else ⟨ctx, [], .ok (.formV (aggregate (urlencodedParse blob.text)))⟩

/-- Model of parseTextFromBlob: parse the limit, reject oversize with 413,
otherwise return the raw text. -/
def parseTextFromBlob (opts : Options) (blob : Blob) (ctx : Ctx) : DecodeRes :=
  match parseLimit opts.textLimit with
  | .error e => ⟨ctx, [], .error (.uncaught e)⟩
  | .ok lim =>
    if sizeExceeds blob.size lim then
      handledOr (throwOrHandle opts ctx
        ⟨.oversize, "Request body too large for text"⟩ 413)
    else ⟨ctx, [], .ok (.textV blob.text)⟩

/-- Limit option consulted for a format. -/
def limitOf (opts : Options) : Format → LimitInput
  | .json => opts.jsonLimit
  | .form => opts.formLimit
  | .text => opts.textLimit

/-- Message of the oversize Error each decoder creates. -/
def oversizeMsg : Format → String
  | .json => "Request body too large for JSON"
  | .form => "Request body too large for form"
  | .text => "Request body too large for text"

/-- Decoder dispatch on the chosen format. -/
def decodeAs (opts : Options) (jp : String → Except String Json)
    (fmt : Format) (blob : Blob) (ctx : Ctx) : DecodeRes :=
  match fmt with
  | .json => parseJsonFromBlob opts jp blob ctx
  | .form => parseFormFromBlob opts blob ctx
  | .text => parseTextFromBlob opts blob ctx

/-- Observable outcome of one middleware invocation: the context as handed
to next() or left at the point of failure, whether next() was invoked,
which errors the onError callback received, and the escaping exception. -/
structure Outcome where
  ctx : Ctx
  nextCalled : Bool
  onErrorCalls : List Err
  thrown : Option Thrown

/-- Outcome of the three skip paths: return next() with nothing changed. -/
def skipOutcome (ctx : Ctx) : Outcome := ⟨ctx, true, [], none⟩

/-- Model of the middleware returned by bodyParser.  The three skip guards
are checked in source order; then the body is read (a rejection goes
through the funnel with 400 and next() is not invoked); then the chosen
decoder runs, its exception propagates if any, and otherwise its result —
possibly undefined — is assigned to ctx.req.body before next() runs. -/
def hoaBodyParser (opts : Options) (jp : String → Except String Json)
    (ctx : Ctx) : Outcome :=
  if methodShouldParse opts ctx.method then
    if bodyPreset ctx.body then skipOutcome ctx
    else
      match chooseFormat opts ctx.ctype with
      | none => skipOutcome ctx
      | some fmt =>
        match blobOf opts ctx with
        | .error emsg =>
          let r := throwOrHandle opts ctx ⟨.readErr, emsg⟩ 400
          ⟨r.ctx, false, r.calls, r.thrown⟩
        | .ok blob =>
          let d := decodeAs opts jp fmt blob ctx
          match d.out with
          | .error t => ⟨d.ctx, false, d.calls, some t⟩
          | .ok v => ⟨{ d.ctx with body := .val v }, true, d.calls, none⟩
  else skipOutcome ctx

/-!
Specification-side definitions.  These follow the wording of the spec and
of the claims, to be compared with the embedded code above.
-/

/-- Decomposition of a limit string according to the documented pattern: on
the trimmed, lower-cased text, a non-empty digit group, an optional
fraction, optional whitespace, and an optional unit with its multiplier. -/
def LimitPattern (s : String) (ip fp : List Char) (m : Nat) : Prop :=
  ∃ ws u, ip ≠ [] ∧ (∀ c ∈ ip, Char.isDigit c = true) ∧
    (∀ c ∈ fp, Char.isDigit c = true) ∧ (∀ c ∈ ws, isJsSpace c = true) ∧
    unitMult u = some m ∧
    lowerChars (trimChars s.toList) =
      ip ++ (if fp = [] then [] else '.' :: fp) ++ ws ++ u

/-- Values associated to a key in the raw entries stream, in order. -/
def valuesFor (k : String) (es : List (String × String)) : List String :=
  (es.filter fun e => e.1 = k).map fun e => e.2

/-- Slot content the spec prescribes for a key from its value list: absent
for no occurrence, the scalar for a single occurrence, the ordered list of
all values for repeated occurrences. -/
def formSpecValue : List String → Option FormValue
  | [] => none
  | [v] => some (.str v)
  | vs => some (.arr vs)

/-- First-seen deduplication of a key stream, with an accumulator of keys
already seen. -/
def firstSeenAux (seen : List String) : List String → List String
  | [] => []
  | k :: ks =>
    if k ∈ seen then firstSeenAux seen ks
    else k :: firstSeenAux (k :: seen) ks

/-- Key list in first-seen order, as the spec describes the mapping. -/
def firstSeen (ks : List String) : List String := firstSeenAux [] ks

/-- Test for an ECMAScript array index: a canonical numeric string (digits
only, no leading zero except the string 0 itself) whose value is below
2 to the 32nd minus one.  Such keys enumerate before all other own keys of
a JavaScript object. -/
def isArrayIndex (s : String) : Bool :=
  decide (s.toList ≠ []) &&
    s.toList.all Char.isDigit &&
    (decide (s = "0") || decide (s.toList.head? ≠ some '0')) &&
    decide (digitsVal s.toList < 4294967295)

/-- Insertion of one key into a list of array-index keys kept in ascending
numeric order. -/
def insertByVal (s : String) : List String → List String
  | [] => [s]
  | t :: rest =>
    if digitsVal s.toList ≤ digitsVal t.toList then s :: t :: rest
    else t :: insertByVal s rest

/-- Sort of array-index keys in ascending numeric order. -/
def sortByVal : List String → List String
  | [] => []
  | s :: rest => insertByVal s (sortByVal rest)

/-- Own-property key enumeration order of a JavaScript object, modelled
from ECMAScript OrdinaryOwnPropertyKeys: array-index keys first in
ascending numeric order, then the remaining string keys in
property-creation order. -/
def enumOrder (ks : List String) : List String :=
  sortByVal (ks.filter isArrayIndex) ++
    ks.filter fun k => !(isArrayIndex k)

/-- Observable key order of the form-decoder result object: the stored
entry list holds the keys in property-creation order, and enumeration
(Object.keys, for-in, JSON.stringify) applies the ECMAScript array-index
reordering on top of it. -/
def enumKeys (l : List (String × FormValue)) : List String :=
  enumOrder (l.map Prod.fst)

/-- Method predicate asserted by the claim: case-insensitive comparison
performed against the upper-cased configured set. -/
def specMethodMatch (methods : List String) (m : String) : Bool :=
  decide (jsUpper m ∈ methods.map jsUpper)

/-- Dispatch the spec describes: the first format of the precedence list
json, form, text that is enabled and whose registry holds the type. -/
def specFirstMatch (opts : Options) (ct : String) : Option Format :=
  [Format.json, Format.form, Format.text].find? fun f =>
    isEnabled opts f && matchTypes opts ct f

/-- Filter key of an extendTypes entry: the lower-cased string for a
non-empty string entry, nothing otherwise.  Two extra lists with the same
keys contribute identically to the registry. -/
def entryKey : ExtraEntry → Option String
  | .str s => if s = "" then none else some (jsLower s)
  | .nonstr => none

/-!
Concrete fixtures used by witnesses and counterexamples.
-/

/-- Stand-in for the platform JSON.parse: rejects the malformed document
used by the tests, accepts anything else. -/
def jpStub : String → Except String Json := fun s =>
  if s = "\x7binvalid json" then .error "Unexpected token i in JSON at position 1"
  else .ok .nullv

/-- Error callback fixture that leaves the context untouched. -/
def cbId : Err → Ctx → Ctx := fun _ c => c

/-- Merged defaults of bodyParser with no user options. -/
def defaults : Options :=
  { enableTypes := some [.json, .form]
    parsedMethods := some ["POST", "PUT", "PATCH"]
    formLimit := .str "56kb"
    jsonLimit := .str "1mb"
    textLimit := .str "1mb"
    extendTypes := fun _ => none
    onError := none
    useClone := true }

/-- Request fixture: POST of the malformed JSON document. -/
def ctxInvalidJson : Ctx :=
  { method := "POST"
    ctype := "application/json"
    body := .stream
    cloneRead := .ok ⟨13, "\x7binvalid json"⟩
    consumeRead := .ok ⟨13, "\x7binvalid json"⟩ }

/-- Request fixture: POST of a form body with a repeated key. -/
def ctxForm : Ctx :=
  { method := "POST"
    ctype := "application/x-www-form-urlencoded"
    body := .stream
    cloneRead := .ok ⟨20, "tags=a&tags=b&tags=c"⟩
    consumeRead := .ok ⟨20, "tags=a&tags=b&tags=c"⟩ }

/-- Request fixture: POST whose body read fails. -/
def ctxReadFail : Ctx :=
  { method := "POST"
    ctype := "application/json"
    body := .stream
    cloneRead := .error "Body has already been consumed"
    consumeRead := .error "Body has already been consumed" }

/-- Request fixture: GET request, not a parseable method. -/
def ctxGet : Ctx :=
  { method := "GET"
    ctype := "application/json"
    body := .stream
    cloneRead := .ok ⟨2, "\x7b\x7d"⟩
    consumeRead := .ok ⟨2, "\x7b\x7d"⟩ }

/-- Options fixture: defaults plus the identity error callback. -/
def optsCb : Options := { defaults with onError := some cbId }

/-- Options fixture: error callback and an unparseable json limit. -/
def optsBadLimit : Options :=
  { defaults with onError := some cbId, jsonLimit := .str "not-a-valid-limit" }

/-- Options fixture: lower-case entry in parsedMethods. -/
def optsLowerMethod : Options := { defaults with parsedMethods := some ["post"] }

/-- Options fixture: upper-case entry in parsedMethods. -/
def optsUpperMethod : Options := { defaults with parsedMethods := some ["POST"] }

/-- Options fixture: upper-case extra MIME type for json. -/
def optsUpperMime : Options :=
  { defaults with
      extendTypes := fun f => if f = .json then some [.str "UPPERCASE"] else none }

/-- Options fixture: a tiny json limit, for oversize runs. -/
def optsTinyJson : Options := { defaults with jsonLimit := .str "10b" }

deriving instance DecidableEq for Except

/-!
Helper lemmas about the limit matcher.
-/

theorem takeWhile_append_all {α : Type} (p : α → Bool) :
    ∀ (l1 l2 : List α), (∀ c ∈ l1, p c = true) →
      (∀ c ∈ l2.head?, p c = false) →
      (l1 ++ l2).takeWhile p = l1 ∧ (l1 ++ l2).dropWhile p = l2
  | [], l2, _, h2 => by
    cases l2 with
    | nil => simp
    | cons c t =>
      have hc : p c = false := h2 c (by simp)
      simp [List.takeWhile_cons, List.dropWhile_cons, hc]
  | a :: l1, l2, h1, h2 => by
    have ha : p a = true := h1 a (by simp)
    have ih := takeWhile_append_all p l1 l2 (fun c hc => h1 c (by simp [hc])) h2
    simp [List.takeWhile_cons, List.dropWhile_cons, ha, ih.1, ih.2]

theorem unitMult_cases {u : List Char} {m : Nat} (h : unitMult u = some m) :
    u = [] ∧ m = 1 ∨ u = ['b'] ∧ m = 1 ∨ u = ['k', 'b'] ∧ m = 1024 ∨
      u = ['m', 'b'] ∧ m = 1024 ^ 2 ∨ u = ['g', 'b'] ∧ m = 1024 ^ 3 := by
  unfold unitMult at h
  split_ifs at h <;> simp_all

theorem isJsSpace_facts {c : Char} (h : isJsSpace c = true) :
    Char.isDigit c = false ∧ c ≠ '.' := by
  have h2 : ((c = ' ' ∨ c = '\t') ∨ c = '\r') ∨ c = '\n' := by
    simpa [isJsSpace, Char.isWhitespace] using h
  rcases h2 with ((h2 | h2) | h2) | h2 <;> subst h2 <;>
    exact ⟨by decide, by decide⟩

theorem unitMult_head {u : List Char} {m : Nat} (h : unitMult u = some m) :
    ∀ c ∈ u.head?, Char.isDigit c = false ∧ c ≠ '.' ∧ isJsSpace c = false := by
  rcases unitMult_cases h with ⟨h1, _⟩ | ⟨h1, _⟩ | ⟨h1, _⟩ | ⟨h1, _⟩ | ⟨h1, _⟩ <;>
    subst h1 <;> intro c hc <;> simp at hc <;> subst hc <;>
    exact ⟨by decide, by decide, by decide⟩

theorem head_ws_unit {ws u : List Char} {m : Nat}
    (hws : ∀ c ∈ ws, isJsSpace c = true) (hu : unitMult u = some m) :
    ∀ c ∈ (ws ++ u).head?, Char.isDigit c = false ∧ c ≠ '.' := by
  cases ws with
  | nil =>
    intro c hc
    simp only [List.nil_append] at hc
    have h := unitMult_head hu c hc
    exact ⟨h.1, h.2.1⟩
  | cons c0 t =>
    intro c hc
    simp only [List.cons_append, List.head?_cons, Option.mem_some_iff] at hc
    subst hc
    have h := isJsSpace_facts (hws c0 (by simp))
    exact ⟨h.1, h.2⟩

theorem dropWhile_ws_unit {ws u : List Char} {m : Nat}
    (hws : ∀ c ∈ ws, isJsSpace c = true) (hu : unitMult u = some m) :
    (ws ++ u).dropWhile isJsSpace = u := by
  refine (takeWhile_append_all isJsSpace ws u hws ?_).2
  intro c hc
  exact (unitMult_head hu c hc).2.2

theorem matchLimit_complete_nofrac {ip ws u : List Char} {m : Nat}
    (hip : ip ≠ []) (hipd : ∀ c ∈ ip, Char.isDigit c = true)
    (hws : ∀ c ∈ ws, isJsSpace c = true)
    (hu : unitMult u = some m) :
    matchLimit (ip ++ (ws ++ u)) = some (ip, [], m) := by
  have hsplit := takeWhile_append_all Char.isDigit ip (ws ++ u) hipd
    (fun c hc => (head_ws_unit hws hu c hc).1)
  have hdot : ¬ ((ws ++ u).head? = some '.') := by
    intro hh
    exact (head_ws_unit hws hu '.' (by rw [hh]; simp)).2 rfl
  simp only [matchLimit, hsplit.1, hsplit.2, if_neg hip, if_neg hdot,
    finishLimit, dropWhile_ws_unit hws hu, hu]

theorem matchLimit_complete_frac {ip fp ws u : List Char} {m : Nat}
    (hip : ip ≠ []) (hfp : fp ≠ [])
    (hipd : ∀ c ∈ ip, Char.isDigit c = true)
    (hfpd : ∀ c ∈ fp, Char.isDigit c = true)
    (hws : ∀ c ∈ ws, isJsSpace c = true)
    (hu : unitMult u = some m) :
    matchLimit (ip ++ ('.' :: (fp ++ (ws ++ u)))) = some (ip, fp, m) := by
  have h1 : ∀ c ∈ (('.' :: (fp ++ (ws ++ u))) : List Char).head?,
      Char.isDigit c = false := by
    intro c hc
    simp only [List.head?_cons, Option.mem_def, Option.some.injEq] at hc
    subst hc
    decide
  have hsplit := takeWhile_append_all Char.isDigit ip ('.' :: (fp ++ (ws ++ u)))
    hipd h1
  have hsplit2 := takeWhile_append_all Char.isDigit fp (ws ++ u) hfpd
    (fun c hc => (head_ws_unit hws hu c hc).1)
  simp only [matchLimit, hsplit.1, hsplit.2, if_neg hip, List.head?_cons,
    if_pos rfl, List.tail_cons, hsplit2.1, hsplit2.2, if_neg hfp,
    finishLimit, dropWhile_ws_unit hws hu, hu]
  simp

theorem matchLimit_complete {ip fp ws u : List Char} {m : Nat}
    (hip : ip ≠ []) (hipd : ∀ c ∈ ip, Char.isDigit c = true)
    (hfpd : ∀ c ∈ fp, Char.isDigit c = true)
    (hws : ∀ c ∈ ws, isJsSpace c = true)
    (hu : unitMult u = some m) :
    matchLimit (ip ++ (if fp = [] then [] else '.' :: fp) ++ ws ++ u) =
      some (ip, fp, m) := by
  by_cases hfp : fp = []
  · subst hfp
    have heq : ip ++ (if ([] : List Char) = [] then [] else '.' :: []) ++ ws ++ u
        = ip ++ (ws ++ u) := by simp
    rw [heq]
    exact matchLimit_complete_nofrac hip hipd hws hu
  · have heq : ip ++ (if fp = [] then [] else '.' :: fp) ++ ws ++ u
        = ip ++ ('.' :: (fp ++ (ws ++ u))) := by
      rw [if_neg hfp]
      simp [List.append_assoc]
    rw [heq]
    exact matchLimit_complete_frac hip hfp hipd hfpd hws hu

theorem matchLimit_sound {cs ip fp : List Char} {m : Nat}
    (h : matchLimit cs = some (ip, fp, m)) :
    ip ≠ [] ∧ (∀ c ∈ ip, Char.isDigit c = true) ∧
      (∀ c ∈ fp, Char.isDigit c = true) ∧
      ∃ ws u, (∀ c ∈ ws, isJsSpace c = true) ∧ unitMult u = some m ∧
        cs = ip ++ (if fp = [] then [] else '.' :: fp) ++ ws ++ u := by
  simp only [matchLimit] at h
  split_ifs at h with h1 h2 h3
  · -- dot branch with a non-empty fraction
    rcases hu : unitMult (((cs.dropWhile Char.isDigit).tail.dropWhile
        Char.isDigit).dropWhile isJsSpace) with _ | m0
    · simp only [finishLimit, hu] at h
      exact absurd h (by simp)
    simp only [finishLimit, hu, Option.some.injEq, Prod.mk.injEq] at h
    obtain ⟨hips, hfps, hms⟩ := h
    subst hips; subst hfps; subst hms
    refine ⟨h1, fun c hc => List.mem_takeWhile_imp hc,
      fun c hc => List.mem_takeWhile_imp hc, ?_⟩
    refine ⟨((cs.dropWhile Char.isDigit).tail.dropWhile
        Char.isDigit).takeWhile isJsSpace,
      ((cs.dropWhile Char.isDigit).tail.dropWhile
        Char.isDigit).dropWhile isJsSpace,
      fun c hc => List.mem_takeWhile_imp hc, hu, ?_⟩
    rw [if_neg h3]
    have hcs := List.takeWhile_append_dropWhile Char.isDigit cs
    have ht := List.takeWhile_append_dropWhile Char.isDigit
      (cs.dropWhile Char.isDigit).tail
    have hr := List.takeWhile_append_dropWhile isJsSpace
      ((cs.dropWhile Char.isDigit).tail.dropWhile Char.isDigit)
    cases hd : cs.dropWhile Char.isDigit with
    | nil => rw [hd] at h2; exact absurd h2 (by simp)
    | cons a t =>
      rw [hd] at h2
      simp only [List.head?_cons, Option.some.injEq] at h2
      subst h2
      rw [hd] at ht hr
      simp only [List.tail_cons] at ht hr ⊢
      calc cs = cs.takeWhile Char.isDigit ++ cs.dropWhile Char.isDigit :=
            hcs.symm
        _ = cs.takeWhile Char.isDigit ++ ('.' :: t) := by rw [hd]
        _ = cs.takeWhile Char.isDigit ++ ('.' :: (t.takeWhile Char.isDigit ++
              t.dropWhile Char.isDigit)) := by rw [ht]
        _ = cs.takeWhile Char.isDigit ++ ('.' :: (t.takeWhile Char.isDigit ++
              ((t.dropWhile Char.isDigit).takeWhile isJsSpace ++
               (t.dropWhile Char.isDigit).dropWhile isJsSpace))) := by rw [hr]
        _ = _ := by simp [List.cons_append, List.append_assoc]
  · -- no-dot branch
    rcases hu : unitMult ((cs.dropWhile Char.isDigit).dropWhile isJsSpace)
        with _ | m0
    · simp only [finishLimit, hu] at h
      exact absurd h (by simp)
    simp only [finishLimit, hu, Option.some.injEq, Prod.mk.injEq] at h
    obtain ⟨hips, hfps, hms⟩ := h
    subst hips; subst hfps; subst hms
    refine ⟨h1, fun c hc => List.mem_takeWhile_imp hc, by simp, ?_⟩
    refine ⟨(cs.dropWhile Char.isDigit).takeWhile isJsSpace,
      (cs.dropWhile Char.isDigit).dropWhile isJsSpace,
      fun c hc => List.mem_takeWhile_imp hc, hu, ?_⟩
    rw [if_pos rfl]
    have hcs := List.takeWhile_append_dropWhile Char.isDigit cs
    have hr := List.takeWhile_append_dropWhile isJsSpace
      (cs.dropWhile Char.isDigit)
    calc cs = cs.takeWhile Char.isDigit ++ cs.dropWhile Char.isDigit := hcs.symm
      _ = cs.takeWhile Char.isDigit ++
            ((cs.dropWhile Char.isDigit).takeWhile isJsSpace ++
             (cs.dropWhile Char.isDigit).dropWhile isJsSpace) := by rw [hr]
      _ = _ := by simp [List.append_assoc]

theorem bytesOf_eq_floor (ip fp : List Char) (m : Nat) :
    (bytesOf ip fp m : ℤ) = ⌊decVal ip fp * (m : ℚ)⌋ := by
  have key : decVal ip fp * (m : ℚ) =
      (((digitsVal ip * 10 ^ fp.length + digitsVal fp) * m : ℕ) : ℚ) /
        (((10 ^ fp.length : ℕ) : ℕ) : ℚ) := by
    have hN : ((10 : ℚ) ^ fp.length) ≠ 0 := by positivity
    unfold decVal
    push_cast
    field_simp
  rw [key, Rat.floor_natCast_div_natCast]
  unfold bytesOf
  push_cast [Int.ofNat_tdiv]
  rfl

theorem parseLimit_pattern {s : String} {ip fp : List Char} {m : Nat}
    (h : LimitPattern s ip fp m) :
    parseLimit (.str s) = .ok (.fin ((⌊decVal ip fp * (m : ℚ)⌋ : ℤ) : ℚ)) := by
  obtain ⟨ws, u, hip, hipd, hfpd, hws, hu, heq⟩ := h
  simp only [parseLimit, heq, matchLimit_complete hip hipd hfpd hws hu]
  rw [← bytesOf_eq_floor]
  norm_cast

theorem parseLimit_nomatch {s : String}
    (h : ¬ ∃ ip fp m, LimitPattern s ip fp m) :
    parseLimit (.str s) = .error ⟨.invalidLimit, "Invalid limit: " ++ s⟩ := by
  cases hm : matchLimit (lowerChars (trimChars s.toList)) with
  | none => simp only [parseLimit, hm]
  | some r =>
    exfalso
    obtain ⟨ip, fp, m⟩ := r
    obtain ⟨hip, hipd, hfpd, ws, u, hws, hu, heq⟩ := matchLimit_sound hm
    exact h ⟨ip, fp, m, ws, u, hip, hipd, hfpd, hws, hu, heq⟩

/-!
Helper lemmas about the MIME registries.
-/

theorem mem_setAdd {l : List String} {s t : String} :
    t ∈ setAdd l s ↔ t ∈ l ∨ t = s := by
  unfold setAdd
  split_ifs with h
  · constructor
    · exact fun ht => Or.inl ht
    · rintro (ht | rfl)
      · exact ht
      · exact h
  · simp

theorem mem_foldl_setAdd {α : Type} (f : α → String) :
    ∀ (l : List α) (acc : List String) (t : String),
      (t ∈ l.foldl (fun a x => setAdd a (f x)) acc ↔
        t ∈ acc ∨ ∃ x ∈ l, f x = t)
  | [], acc, t => by simp
  | x :: l, acc, t => by
    simp only [List.foldl_cons]
    rw [mem_foldl_setAdd f l (setAdd acc (f x)) t]
    simp only [mem_setAdd, List.mem_cons]
    constructor
    · rintro ((h | h) | ⟨y, hy, hfy⟩)
      · exact Or.inl h
      · exact Or.inr ⟨x, Or.inl rfl, h.symm⟩
      · exact Or.inr ⟨y, Or.inr hy, hfy⟩
    · rintro (h | ⟨y, (rfl | hy), hfy⟩)
      · exact Or.inl (Or.inl h)
      · exact Or.inl (Or.inr hfy.symm)
      · exact Or.inr ⟨y, hy, hfy⟩

theorem mem_foldl_mergeStep :
    ∀ (ex : List ExtraEntry) (acc : List String) (t : String),
      (t ∈ ex.foldl mergeStep acc ↔
        t ∈ acc ∨ ∃ s, ExtraEntry.str s ∈ ex ∧ s ≠ "" ∧ jsLower s = t)
  | [], acc, t => by simp
  | e :: ex, acc, t => by
    simp only [List.foldl_cons]
    rw [mem_foldl_mergeStep ex (mergeStep acc e) t]
    cases e with
    | nonstr => simp [mergeStep, List.mem_cons]
    | str s0 =>
      by_cases h0 : s0 = ""
      · subst h0
        simp only [mergeStep, if_pos rfl, List.mem_cons]
        constructor
        · rintro (h | ⟨s, hs, hne, hl⟩)
          · exact Or.inl h
          · exact Or.inr ⟨s, Or.inr hs, hne, hl⟩
        · rintro (h | ⟨s, (hs | hs), hne, hl⟩)
          · exact Or.inl h
          · exact absurd (ExtraEntry.str.inj hs) hne
          · exact Or.inr ⟨s, hs, hne, hl⟩
      · simp only [mergeStep, if_neg h0, mem_setAdd, List.mem_cons]
        constructor
        · rintro ((h | h) | ⟨s, hs, hne, hl⟩)
          · exact Or.inl h
          · exact Or.inr ⟨s0, Or.inl rfl, h0, h.symm⟩
          · exact Or.inr ⟨s, Or.inr hs, hne, hl⟩
        · rintro (h | ⟨s, (hs | hs), hne, hl⟩)
          · exact Or.inl (Or.inl h)
          · rw [ExtraEntry.str.inj hs] at hl
            exact Or.inl (Or.inr hl.symm)
          · exact Or.inr ⟨s, hs, hne, hl⟩

theorem mem_mergeMimes {base : List String} {extra : List ExtraEntry}
    {t : String} :
    t ∈ mergeMimes base (some extra) ↔
      (∃ b ∈ base, jsLower b = t) ∨
        ∃ s, ExtraEntry.str s ∈ extra ∧ s ≠ "" ∧ jsLower s = t := by
  unfold mergeMimes
  rw [mem_foldl_mergeStep, mem_foldl_setAdd]
  simp

theorem mem_mergeMimes_none {base : List String} {t : String} :
    t ∈ mergeMimes base none ↔ ∃ b ∈ base, jsLower b = t := by
  unfold mergeMimes
  rw [mem_foldl_setAdd]
  simp

theorem mergeStep_congr {e1 e2 : ExtraEntry} (h : entryKey e1 = entryKey e2)
    (acc : List String) : mergeStep acc e1 = mergeStep acc e2 := by
  cases e1 <;> cases e2 <;>
    simp only [entryKey, mergeStep] at h ⊢ <;>
    split_ifs at h ⊢ <;> simp_all

theorem foldl_mergeStep_congr :
    ∀ (ex1 ex2 : List ExtraEntry), ex1.map entryKey = ex2.map entryKey →
      ∀ acc, ex1.foldl mergeStep acc = ex2.foldl mergeStep acc
  | [], [], _, _ => rfl
  | [], _ :: _, h, _ => by simp at h
  | _ :: _, [], h, _ => by simp at h
  | e1 :: ex1, e2 :: ex2, h, acc => by
    simp only [List.map_cons, List.cons.injEq] at h
    simp only [List.foldl_cons]
    rw [mergeStep_congr h.1 acc]
    exact foldl_mergeStep_congr ex1 ex2 h.2 (mergeStep acc e2)

theorem mergeMimes_congr {base : List String} {ex1 ex2 : List ExtraEntry}
    (h : ex1.map entryKey = ex2.map entryKey) :
    mergeMimes base (some ex1) = mergeMimes base (some ex2) :=
  foldl_mergeStep_congr ex1 ex2 h _

/-!
Helper lemmas about the form aggregation loop.
-/

theorem lookupFV_addEntry :
    ∀ (acc : List (String × FormValue)) (k v k' : String),
      lookupFV (addEntry acc k v) k' =
        if k' = k then
          (match lookupFV acc k with
           | none => some (.str v)
           | some (.str s) => some (.arr [s, v])
           | some (.arr l) => some (.arr (l ++ [v])))
        else lookupFV acc k'
  | [], k, v, k' => by
    by_cases h : k' = k
    · subst h
      simp [addEntry, lookupFV]
    · have h2 : ¬ (k = k') := fun hh => h hh.symm
      simp [addEntry, lookupFV, h, h2]
  | (k0, fv) :: rest, k, v, k' => by
    by_cases hk : k0 = k
    · subst hk
      by_cases h : k' = k0
      · subst h
        cases fv <;> simp [addEntry, lookupFV]
      · have h2 : ¬ (k0 = k') := fun hh => h hh.symm
        cases fv <;> simp [addEntry, lookupFV, h, h2]
    · by_cases h : k0 = k'
      · subst h
        simp [addEntry, lookupFV, hk]
      · rw [show addEntry ((k0, fv) :: rest) k v
              = (k0, fv) :: addEntry rest k v by simp [addEntry, hk]]
        simp only [lookupFV, if_neg h, if_neg hk]
        exact lookupFV_addEntry rest k v k'

theorem aggregate_append (es : List (String × String)) (e : String × String) :
    aggregate (es ++ [e]) = addEntry (aggregate es) e.1 e.2 := by
  unfold aggregate
  rw [List.foldl_append]
  rfl

theorem valuesFor_append (k : String) (es : List (String × String))
    (e : String × String) :
    valuesFor k (es ++ [e]) =
      valuesFor k es ++ (if e.1 = k then [e.2] else []) := by
  unfold valuesFor
  rw [List.filter_append]
  by_cases he : e.1 = k <;> simp [he]

theorem aggregate_lookup (es : List (String × String)) (k : String) :
    lookupFV (aggregate es) k = formSpecValue (valuesFor k es) := by
  induction es using List.reverseRecOn with
  | nil => rfl
  | append_singleton es e ih =>
    rw [aggregate_append, lookupFV_addEntry, valuesFor_append]
    by_cases h : k = e.1
    · subst h
      rw [if_pos rfl, if_pos rfl, ih]
      cases hvs : valuesFor e.1 es with
      | nil => simp [hvs, formSpecValue]
      | cons v1 t =>
        cases t with
        | nil => simp [hvs, formSpecValue]
        | cons v2 t2 => simp [hvs, formSpecValue]
    · have h2 : ¬ (e.1 = k) := fun hh => h hh.symm
      rw [if_neg h, if_neg h2, ih]
      simp

theorem firstSeenAux_congr :
    ∀ (l : List String) (s1 s2 : List String), (∀ x, x ∈ s1 ↔ x ∈ s2) →
      firstSeenAux s1 l = firstSeenAux s2 l
  | [], _, _, _ => rfl
  | k :: l, s1, s2, h => by
    simp only [firstSeenAux]
    by_cases hk : k ∈ s1
    · rw [if_pos hk, if_pos ((h k).mp hk)]
      exact firstSeenAux_congr l s1 s2 h
    · rw [if_neg hk, if_neg (fun hh => hk ((h k).mpr hh))]
      rw [firstSeenAux_congr l (k :: s1) (k :: s2) (by intro x; simp [h x])]

theorem keys_addEntry :
    ∀ (acc : List (String × FormValue)) (k v : String),
      (addEntry acc k v).map Prod.fst =
        if k ∈ acc.map Prod.fst then acc.map Prod.fst
        else acc.map Prod.fst ++ [k]
  | [], k, v => by simp [addEntry]
  | (k0, fv) :: rest, k, v => by
    by_cases hk : k0 = k
    · subst hk
      cases fv <;> simp [addEntry]
    · rw [show addEntry ((k0, fv) :: rest) k v
            = (k0, fv) :: addEntry rest k v by simp [addEntry, hk]]
      simp only [List.map_cons]
      rw [keys_addEntry rest k v]
      have hne : ¬ (k = k0) := fun hh => hk hh.symm
      by_cases hm : k ∈ rest.map Prod.fst
      · rw [if_pos hm, if_pos (by simp [List.mem_cons, hm])]
      · rw [if_neg hm, if_neg (by simp [List.mem_cons, hne, hm])]
        simp

theorem keys_foldl :
    ∀ (es : List (String × String)) (acc : List (String × FormValue)),
      (es.foldl (fun a e => addEntry a e.1 e.2) acc).map Prod.fst =
        acc.map Prod.fst ++ firstSeenAux (acc.map Prod.fst) (es.map Prod.fst)
  | [], acc => by simp [firstSeenAux]
  | e :: es, acc => by
    simp only [List.foldl_cons, List.map_cons]
    rw [keys_foldl es (addEntry acc e.1 e.2), keys_addEntry]
    simp only [firstSeenAux]
    by_cases hm : e.1 ∈ acc.map Prod.fst
    · rw [if_pos hm, if_pos hm]
    · rw [if_neg hm, if_neg hm]
      rw [firstSeenAux_congr (es.map Prod.fst) (acc.map Prod.fst ++ [e.1])
        (e.1 :: acc.map Prod.fst) (by intro x; simp [or_comm])]
      simp

theorem aggregate_keys (es : List (String × String)) :
    (aggregate es).map Prod.fst = firstSeen (es.map Prod.fst) := by
  unfold aggregate firstSeen
  rw [keys_foldl]
  simp

/-!
Helper lemmas about the middleware runs.
-/

theorem decodeAs_limitError {opts : Options} {jp : String → Except String Json}
    {fmt : Format} {blob : Blob} {ctx : Ctx} {e : Err}
    (hL : parseLimit (limitOf opts fmt) = .error e) :
    decodeAs opts jp fmt blob ctx = ⟨ctx, [], .error (.uncaught e)⟩ := by
  cases fmt <;>
    simp_all [decodeAs, limitOf, parseJsonFromBlob, parseFormFromBlob,
      parseTextFromBlob]

theorem decodeAs_oversize {opts : Options} {jp : String → Except String Json}
    {fmt : Format} {blob : Blob} {ctx : Ctx} {lim : ByteLim}
    (hL : parseLimit (limitOf opts fmt) = .ok lim)
    (hs : sizeExceeds blob.size lim = true) :
    decodeAs opts jp fmt blob ctx =
      handledOr (throwOrHandle opts ctx ⟨.oversize, oversizeMsg fmt⟩ 413) := by
  cases fmt <;>
    simp_all [decodeAs, limitOf, oversizeMsg, parseJsonFromBlob,
      parseFormFromBlob, parseTextFromBlob]

theorem decodeAs_jsonError {opts : Options} {jp : String → Except String Json}
    {blob : Blob} {ctx : Ctx} {lim : ByteLim} {msg : String}
    (hL : parseLimit opts.jsonLimit = .ok lim)
    (hs : sizeExceeds blob.size lim = false)
    (hj : jp blob.text = .error msg) :
    decodeAs opts jp .json blob ctx =
      handledOr (throwOrHandle opts ctx ⟨.jsonSyntax, msg⟩ 400) := by
  simp [decodeAs, parseJsonFromBlob, hL, hs, hj]

theorem decodeAs_noerrcb {opts : Options} {jp : String → Except String Json}
    {fmt : Format} {blob : Blob} {ctx : Ctx} (hcb : opts.onError = none) :
    (decodeAs opts jp fmt blob ctx).ctx = ctx ∧
      (decodeAs opts jp fmt blob ctx).calls = [] := by
  cases fmt
  case json =>
    rcases hL : parseLimit opts.jsonLimit with e | lim
    · simp [decodeAs, parseJsonFromBlob, hL]
    cases hs : sizeExceeds blob.size lim
    · rcases hj : jp blob.text with msg | j
      · simp [decodeAs, parseJsonFromBlob, hL, hs, hj, throwOrHandle,
          handledOr, hcb]
      · simp [decodeAs, parseJsonFromBlob, hL, hs, hj]
    · simp [decodeAs, parseJsonFromBlob, hL, hs, throwOrHandle, handledOr, hcb]
  case form =>
    rcases hL : parseLimit opts.formLimit with e | lim
    · simp [decodeAs, parseFormFromBlob, hL]
    cases hs : sizeExceeds blob.size lim
    · simp [decodeAs, parseFormFromBlob, hL, hs]
    · simp [decodeAs, parseFormFromBlob, hL, hs, throwOrHandle, handledOr, hcb]
  case text =>
    rcases hL : parseLimit opts.textLimit with e | lim
    · simp [decodeAs, parseTextFromBlob, hL]
    cases hs : sizeExceeds blob.size lim
    · simp [decodeAs, parseTextFromBlob, hL, hs]
    · simp [decodeAs, parseTextFromBlob, hL, hs, throwOrHandle, handledOr, hcb]

theorem hoaBodyParser_noerrcb {opts : Options} {jp : String → Except String Json}
    {ctx : Ctx} (hcb : opts.onError = none) :
    (hoaBodyParser opts jp ctx).thrown = none ∨
      ((hoaBodyParser opts jp ctx).ctx = ctx ∧
        (hoaBodyParser opts jp ctx).nextCalled = false ∧
        (hoaBodyParser opts jp ctx).onErrorCalls = []) := by
  unfold hoaBodyParser
  cases hm : methodShouldParse opts ctx.method
  · simp [skipOutcome]
  cases hp : bodyPreset ctx.body
  case true => simp [skipOutcome]
  rcases hcf : chooseFormat opts ctx.ctype with _ | fmt
  · simp [skipOutcome]
  rcases hb : blobOf opts ctx with emsg | blob
  · simp [throwOrHandle, hcb]
  have hd := @decodeAs_noerrcb opts jp fmt blob ctx hcb
  rcases ho : (decodeAs opts jp fmt blob ctx).out with t | v
  · simp [ho, hd.1, hd.2]
  · simp [ho]

theorem formSpecValue_eq_none {vs : List String} :
    formSpecValue vs = none ↔ vs = [] := by
  cases vs with
  | nil => simp [formSpecValue]
  | cons v t => cases t <;> simp [formSpecValue]

theorem lookupFV_eq_none :
    ∀ (l : List (String × FormValue)) (k : String),
      lookupFV l k = none ↔ k ∉ l.map Prod.fst
  | [], k => by simp [lookupFV]
  | (k0, v) :: l, k => by
    by_cases h : k0 = k
    · subst h
      simp [lookupFV]
    · have h2 : ¬ (k = k0) := fun hh => h hh.symm
      simp [lookupFV, if_neg h, lookupFV_eq_none l k, List.mem_cons, h2]

theorem mem_firstSeenAux :
    ∀ (l seen : List String) (k : String),
      k ∈ firstSeenAux seen l ↔ k ∈ l ∧ k ∉ seen
  | [], seen, k => by simp [firstSeenAux]
  | k0 :: l, seen, k => by
    simp only [firstSeenAux]
    by_cases h0 : k0 ∈ seen
    · rw [if_pos h0, mem_firstSeenAux l seen k]
      constructor
      · rintro ⟨hl, hs⟩
        exact ⟨List.mem_cons_of_mem _ hl, hs⟩
      · rintro ⟨hl, hs⟩
        rcases List.mem_cons.mp hl with rfl | hl2
        · exact absurd h0 hs
        · exact ⟨hl2, hs⟩
    · rw [if_neg h0]
      simp only [List.mem_cons, mem_firstSeenAux l (k0 :: seen) k]
      constructor
      · rintro (rfl | ⟨hl, hs⟩)
        · exact ⟨Or.inl rfl, h0⟩
        · exact ⟨Or.inr hl, fun hk => hs (Or.inr hk)⟩
      · rintro ⟨(rfl | hl), hs⟩
        · exact Or.inl rfl
        · by_cases hkk : k = k0
          · exact Or.inl hkk
          · exact Or.inr ⟨hl, fun hh => hh.elim hkk hs⟩

/-!
Claim theorems.
-/

/-- C2: parseLimit maps an absent limit to Infinity, a finite number to
itself, a string matching digits, optional decimal fraction, optional
whitespace and an optional unit b, kb, mb, gb (case-insensitively, via the
lower-casing) to the floor of the decimal value times the multiplier with
kb = 1024, mb = 1024 squared, gb = 1024 cubed; in particular 1kb gives
1024, 1.5kb gives 1536, 2gb gives 2 times 1024 cubed; any other input type
and any non-matching string yield an invalid-limit error, and the Infinity
limit never triggers oversize. -/
theorem c2_parseLimit :
    parseLimit .nullv = .ok .inf ∧
    (∀ q : ℚ, parseLimit (.num q) = .ok (.fin q)) ∧
    (∀ (s : String) (ip fp : List Char) (m : Nat), LimitPattern s ip fp m →
      parseLimit (.str s) = .ok (.fin ((⌊decVal ip fp * (m : ℚ)⌋ : ℤ) : ℚ))) ∧
    (∀ s : String, (¬ ∃ ip fp m, LimitPattern s ip fp m) →
      parseLimit (.str s) = .error ⟨.invalidLimit, "Invalid limit: " ++ s⟩) ∧
    (∀ t : String, parseLimit (.other t) =
      .error ⟨.unsupportedLimit, "Unsupported limit type: " ++ t⟩) ∧
    parseLimit (.str "1kb") = .ok (.fin 1024) ∧
    parseLimit (.str "1.5kb") = .ok (.fin 1536) ∧
    parseLimit (.str "2gb") = .ok (.fin ((2 * 1024 ^ 3 : ℕ) : ℚ)) ∧
    (∀ n : Nat, sizeExceeds n .inf = false) := by
  refine ⟨rfl, fun q => rfl, ?_, ?_, fun t => rfl, by decide, by decide,
    by decide, fun n => rfl⟩
  · intro s ip fp m h
    exact parseLimit_pattern h
  · intro s h
    exact parseLimit_nomatch h

/-- C2 witness: the string 1 kb, with its whitespace, decomposes per the
pattern and parses to the floor of 1 times 1024. -/
theorem c2_parseLimit_witness :
    parseLimit (.str "1 kb") =
      .ok (.fin ((⌊decVal ['1'] [] * ((1024 : ℕ) : ℚ)⌋ : ℤ) : ℚ)) :=
  c2_parseLimit.2.2.1 "1 kb" ['1'] [] 1024
    ⟨[' '], ['k', 'b'], by decide, by decide, by decide, by decide, by decide,
      by decide⟩

theorem enumOrder_of_no_index {ks : List String}
    (h : ∀ k ∈ ks, isArrayIndex k = false) : enumOrder ks = ks := by
  unfold enumOrder
  have h1 : ks.filter isArrayIndex = [] :=
    List.filter_eq_nil_iff.mpr (fun a ha => by simp [h a ha])
  have h2 : (ks.filter fun k => !(isArrayIndex k)) = ks :=
    List.filter_eq_self.mpr (fun a ha => by simp [h a ha])
  rw [h1, h2]
  rfl

theorem enumKeys_aggregate (es : List (String × String)) :
    enumKeys (aggregate es) = enumOrder (firstSeen (es.map Prod.fst)) := by
  unfold enumKeys
  rw [aggregate_keys]

/-- C3 (amended): a form body within the limit decodes to the aggregation
of its urlencoded entries; the aggregation maps each key to its single
value as a scalar, or to the ordered list of all its values once repeated,
never overwriting; the keys of the result object enumerate in the
JavaScript own-property order — array-index keys first in ascending
numeric order, then the remaining keys in first-seen insertion order — so
first-seen key order holds exactly when no field name is an array index;
the two examples of the spec evaluate accordingly. -/
theorem c3_formAggregation :
    (∀ (opts : Options) (blob : Blob) (ctx : Ctx) (lim : ByteLim),
      parseLimit opts.formLimit = .ok lim →
      sizeExceeds blob.size lim = false →
      parseFormFromBlob opts blob ctx =
        ⟨ctx, [], .ok (.formV (aggregate (urlencodedParse blob.text)))⟩) ∧
    (∀ (es : List (String × String)) (k : String),
      lookupFV (aggregate es) k = formSpecValue (valuesFor k es)) ∧
    (∀ es : List (String × String),
      enumKeys (aggregate es) = enumOrder (firstSeen (es.map Prod.fst))) ∧
    (∀ es : List (String × String),
      (∀ k ∈ es.map Prod.fst, isArrayIndex k = false) →
        enumKeys (aggregate es) = firstSeen (es.map Prod.fst)) ∧
    aggregate (urlencodedParse "tags=a&tags=b&tags=c") =
      [("tags", .arr ["a", "b", "c"])] ∧
    enumKeys (aggregate (urlencodedParse "tags=a&tags=b&tags=c")) =
      ["tags"] ∧
    aggregate (urlencodedParse "name=test") = [("name", .str "test")] := by
  refine ⟨?_, aggregate_lookup, enumKeys_aggregate, ?_, by decide, by decide,
    by decide⟩
  · intro opts blob ctx lim hL hs
    simp [parseFormFromBlob, hL, hs]
  · intro es h
    rw [enumKeys_aggregate]
    refine enumOrder_of_no_index ?_
    intro k hk
    unfold firstSeen at hk
    exact h k ((mem_firstSeenAux (es.map Prod.fst) [] k).mp hk).1

/-- C3 counterexample: for the body b=1&2=x the result object enumerates
the array-index key 2 before b, while first-seen order is b then 2 — the
claimed first-seen key order fails on integer-index field names. -/
theorem c3_formAggregation_counterexample :
    enumKeys (aggregate (urlencodedParse "b=1&2=x")) = ["2", "b"] ∧
      firstSeen ((urlencodedParse "b=1&2=x").map Prod.fst) = ["b", "2"] ∧
      enumKeys (aggregate (urlencodedParse "b=1&2=x")) ≠
        firstSeen ((urlencodedParse "b=1&2=x").map Prod.fst) :=
  ⟨by decide, by decide, by decide⟩

/-- C3 witness: the default form limit admits the 20-byte example body and
the decoder returns its aggregation. -/
theorem c3_formAggregation_witness :
    parseFormFromBlob defaults ⟨20, "tags=a&tags=b&tags=c"⟩ ctxForm =
      ⟨ctxForm, [],
        .ok (.formV (aggregate (urlencodedParse "tags=a&tags=b&tags=c")))⟩ :=
  c3_formAggregation.1 defaults ⟨20, "tags=a&tags=b&tags=c"⟩ ctxForm
    (.fin ((56 * 1024 : ℕ) : ℚ)) (by decide) (by decide)

/-- C10: the prototype-less result object of the form decoder holds exactly
the parsed keys as own entries — a key reads back as absent exactly when it
was never parsed, the key set equals the parsed keys, and the keys
__proto__, constructor and toString aggregate as ordinary entries. -/
theorem c10_prototype :
    (∀ (es : List (String × String)) (k : String),
      lookupFV (aggregate es) k = none ↔ k ∉ es.map Prod.fst) ∧
    (∀ (es : List (String × String)) (k : String),
      k ∈ (aggregate es).map Prod.fst ↔ k ∈ es.map Prod.fst) ∧
    aggregate (urlencodedParse "__proto__=x&constructor=y&toString=z") =
      [("__proto__", .str "x"), ("constructor", .str "y"),
       ("toString", .str "z")] ∧
    lookupFV (aggregate (urlencodedParse "__proto__=a&__proto__=b"))
      "__proto__" = some (.arr ["a", "b"]) := by
  refine ⟨?_, ?_, by decide, by decide⟩
  · intro es k
    rw [lookupFV_eq_none, aggregate_keys]
    unfold firstSeen
    rw [mem_firstSeenAux]
    simp
  · intro es k
    rw [aggregate_keys]
    unfold firstSeen
    rw [mem_firstSeenAux]
    simp

/-- C5: a request skipped for any of the three reasons — method not
parseable, body slot already holding a non-stream value, or no enabled
format matching the content-type — leaves the whole context untouched,
invokes next(), passes no error to the callback and raises nothing. -/
theorem c5_skip (opts : Options) (jp : String → Except String Json)
    (ctx : Ctx)
    (h : methodShouldParse opts ctx.method = false ∨
      bodyPreset ctx.body = true ∨ chooseFormat opts ctx.ctype = none) :
    hoaBodyParser opts jp ctx = ⟨ctx, true, [], none⟩ := by
  cases hm : methodShouldParse opts ctx.method
  · simp [hoaBodyParser, hm, skipOutcome]
  cases hp : bodyPreset ctx.body
  case true => simp [hoaBodyParser, hm, hp, skipOutcome]
  rcases h with h | h | h
  · rw [hm] at h
    exact absurd h (by simp)
  · rw [hp] at h
    exact absurd h (by simp)
  · simp [hoaBodyParser, hm, hp, h, skipOutcome]

/-- C5 witness: a GET request with a json content-type passes through
unchanged under the default configuration. -/
theorem c5_skip_witness :
    hoaBodyParser defaults jpStub ctxGet = ⟨ctxGet, true, [], none⟩ :=
  c5_skip defaults jpStub ctxGet (Or.inl (by decide))

/-- C7 (amended): parsing proceeds past the method check exactly when the
upper-cased request method is literally a member of the configured list as
given — the configured entries are not upper-cased, so a lower-case entry
never matches; a missing list disables parsing; and a request whose method
fails the check passes through unchanged. -/
theorem c7_methodCheck :
    (∀ (opts : Options) (m : String) (l : List String),
      opts.parsedMethods = some l →
        (methodShouldParse opts m = true ↔ jsUpper m ∈ l)) ∧
    (∀ (opts : Options) (m : String), opts.parsedMethods = none →
      methodShouldParse opts m = false) ∧
    methodShouldParse optsUpperMethod "post" = true ∧
    methodShouldParse optsLowerMethod "POST" = false ∧
    (∀ (opts : Options) (jp : String → Except String Json) (ctx : Ctx),
      methodShouldParse opts ctx.method = false →
        hoaBodyParser opts jp ctx = ⟨ctx, true, [], none⟩) := by
  refine ⟨?_, ?_, by decide, by decide, ?_⟩
  · intro opts m l h
    simp [methodShouldParse, h]
  · intro opts m h
    simp [methodShouldParse, h]
  · intro opts jp ctx h
    simp [hoaBodyParser, h, skipOutcome]

/-- C7 witness: with the configured list POST, the method post passes the
check exactly when its upper-casing is in the list. -/
theorem c7_methodCheck_witness :
    methodShouldParse optsUpperMethod "post" = true ↔
      jsUpper "post" ∈ ["POST"] :=
  c7_methodCheck.1 optsUpperMethod "post" ["POST"] rfl

/-- C7 counterexample: the claim predicts that configuring post matches the
method POST under the upper-cased comparison, but methodShouldParse rejects
it, because the configured entries are compared verbatim. -/
theorem c7_methodCheck_counterexample :
    specMethodMatch ["post"] "POST" = true ∧
      methodShouldParse optsLowerMethod "POST" = false := ⟨by decide, by decide⟩

/-- C8: the decoder dispatch equals the first match over the precedence
list json, form, text, each candidate gated on being enabled and on its
registry holding the content-type. -/
theorem c8_precedence (opts : Options) (ct : String) :
    chooseFormat opts ct = specFirstMatch opts ct := by
  unfold chooseFormat specFirstMatch
  cases h1 : isEnabled opts .json && matchTypes opts ct .json <;>
    cases h2 : isEnabled opts .form && matchTypes opts ct .form <;>
      cases h3 : isEnabled opts .text && matchTypes opts ct .text <;>
        simp [List.find?, h1, h2, h3]

/-- C6 (amended): the registry holds exactly the lower-casings of the
built-ins and of the non-empty string extras — so built-ins are never
replaced and non-string or empty entries are dropped without error; the
configured entry is matched up to case (two extra lists with the same
lower-cased string entries build the same registry); the request side is
matched verbatim, as the lower-cased fixture shows. -/
theorem c6_extendTypes :
    (∀ (base : List String) (extra : List ExtraEntry) (t : String),
      t ∈ mergeMimes base (some extra) ↔
        (∃ b ∈ base, jsLower b = t) ∨
          ∃ s, ExtraEntry.str s ∈ extra ∧ s ≠ "" ∧ jsLower s = t) ∧
    (∀ (base : List String) (extra : Option (List ExtraEntry)) (b : String),
      b ∈ base → jsLower b ∈ mergeMimes base extra) ∧
    (∀ (base : List String) (ex1 ex2 : List ExtraEntry),
      ex1.map entryKey = ex2.map entryKey →
        mergeMimes base (some ex1) = mergeMimes base (some ex2)) ∧
    mergeMimes [] (some [.str "UPPERCASE"]) =
      mergeMimes [] (some [.str "uppercase"]) ∧
    matchTypes optsUpperMime "uppercase" .json = true := by
  refine ⟨fun base extra t => mem_mergeMimes, ?_, ?_, by decide, by decide⟩
  · intro base extra b hb
    cases extra with
    | none => exact mem_mergeMimes_none.mpr ⟨b, hb, rfl⟩
    | some ex => exact mem_mergeMimes.mpr (Or.inl ⟨b, hb, rfl⟩)
  · intro base ex1 ex2 h
    exact mergeMimes_congr h

/-- C6 witness: two extra lists whose entries differ only in case build the
same json registry. -/
theorem c6_extendTypes_witness :
    mergeMimes ["application/json"] (some [.str "Application/X-Custom"]) =
      mergeMimes ["application/json"] (some [.str "application/x-custom"]) :=
  c6_extendTypes.2.2.1 ["application/json"] [.str "Application/X-Custom"]
    [.str "application/x-custom"] (by decide)

/-- C6 counterexample: the extra entry UPPERCASE is configured, yet a
request carrying the identical content-type string does not match — the
registry stores only the lower-casing, and the request side is compared
verbatim, so the matching is not case-insensitive in the request
content-type. -/
theorem c6_extendTypes_counterexample :
    ExtraEntry.str "UPPERCASE" ∈ [ExtraEntry.str "UPPERCASE"] ∧
      matchTypes optsUpperMime "UPPERCASE" Format.json = false ∧
      matchTypes optsUpperMime "uppercase" Format.json = true :=
  ⟨by decide, by decide, by decide⟩

/-- C1 (amended): with no error callback, any run that ends in a raised
exception leaves the whole context — in particular the body slot — exactly
as it was; with a callback configured, a failed body read leaves the body
slot as the callback left it (unchanged for a callback that does not touch
it), but a handled oversize or JSON-syntax failure overwrites the slot
with the undefined decode result. -/
theorem c1_bodySlot :
    (∀ (opts : Options) (jp : String → Except String Json) (ctx : Ctx),
      opts.onError = none → ∀ t : Thrown,
        (hoaBodyParser opts jp ctx).thrown = some t →
        (hoaBodyParser opts jp ctx).ctx = ctx) ∧
    (∀ (opts : Options) (f : Err → Ctx → Ctx)
        (jp : String → Except String Json) (ctx : Ctx) (fmt : Format)
        (emsg : String),
      opts.onError = some f → (∀ e c, (f e c).body = c.body) →
      methodShouldParse opts ctx.method = true →
      bodyPreset ctx.body = false →
      chooseFormat opts ctx.ctype = some fmt →
      blobOf opts ctx = .error emsg →
      (hoaBodyParser opts jp ctx).ctx.body = ctx.body) ∧
    (∀ (opts : Options) (f : Err → Ctx → Ctx)
        (jp : String → Except String Json) (ctx : Ctx) (fmt : Format)
        (blob : Blob) (lim : ByteLim),
      opts.onError = some f →
      methodShouldParse opts ctx.method = true →
      bodyPreset ctx.body = false →
      chooseFormat opts ctx.ctype = some fmt →
      blobOf opts ctx = .ok blob →
      parseLimit (limitOf opts fmt) = .ok lim →
      sizeExceeds blob.size lim = true →
      (hoaBodyParser opts jp ctx).ctx.body = .val .undef) := by
  refine ⟨?_, ?_, ?_⟩
  · intro opts jp ctx hcb t ht
    rcases hoaBodyParser_noerrcb hcb with hnone | ⟨hc, _, _⟩
    · rw [ht] at hnone
      exact absurd hnone (by simp)
    · exact hc
  · intro opts f jp ctx fmt emsg hcb hpres hm hp hcf hb
    simp [hoaBodyParser, hm, hp, hcf, hb, throwOrHandle, hcb, hpres]
  · intro opts f jp ctx fmt blob lim hcb hm hp hcf hb hL hs
    simp [hoaBodyParser, hm, hp, hcf, hb, decodeAs_oversize hL hs,
      throwOrHandle, handledOr, hcb]

/-- C1 witness: with no callback, the run failing on malformed JSON raises
and leaves the context untouched. -/
theorem c1_bodySlot_witness :
    (hoaBodyParser defaults jpStub ctxInvalidJson).ctx = ctxInvalidJson :=
  c1_bodySlot.1 defaults jpStub ctxInvalidJson rfl
    (Thrown.ctxThrow 400 "Unexpected token i in JSON at position 1"
      ⟨.jsonSyntax, "Unexpected token i in JSON at position 1"⟩) rfl

/-- C1 counterexample: with an error callback configured, the JSON-syntax
failure is handed to the callback and the middleware then overwrites the
body slot — previously the raw stream marker — with undefined, so the slot
does not keep its prior value on this decoder failure. -/
theorem c1_bodySlot_counterexample :
    (hoaBodyParser optsCb jpStub ctxInvalidJson).onErrorCalls ≠ [] ∧
    ctxInvalidJson.body = BodySlot.stream ∧
    (hoaBodyParser optsCb jpStub ctxInvalidJson).ctx.body =
      BodySlot.val JSVal.undef ∧
    (hoaBodyParser optsCb jpStub ctxInvalidJson).ctx.body ≠
      ctxInvalidJson.body := by
  have h1 : (hoaBodyParser optsCb jpStub ctxInvalidJson).onErrorCalls =
      [⟨.jsonSyntax, "Unexpected token i in JSON at position 1"⟩] := rfl
  have h2 : (hoaBodyParser optsCb jpStub ctxInvalidJson).ctx.body =
      BodySlot.val JSVal.undef := rfl
  refine ⟨by rw [h1]; simp, rfl, h2, ?_⟩
  rw [h2, show ctxInvalidJson.body = BodySlot.stream from rfl]
  simp

/-- C9: with a callback configured, a failed body read makes the
middleware return without invoking next() and without raising, while a
handled oversize failure (for any format) and a handled JSON-syntax
failure still assign undefined to the body slot and invoke next(). -/
theorem c9_continuation :
    (∀ (opts : Options) (f : Err → Ctx → Ctx)
        (jp : String → Except String Json) (ctx : Ctx) (fmt : Format)
        (emsg : String),
      opts.onError = some f →
      methodShouldParse opts ctx.method = true →
      bodyPreset ctx.body = false →
      chooseFormat opts ctx.ctype = some fmt →
      blobOf opts ctx = .error emsg →
      (hoaBodyParser opts jp ctx).nextCalled = false ∧
        (hoaBodyParser opts jp ctx).thrown = none) ∧
    (∀ (opts : Options) (f : Err → Ctx → Ctx)
        (jp : String → Except String Json) (ctx : Ctx) (fmt : Format)
        (blob : Blob) (lim : ByteLim),
      opts.onError = some f →
      methodShouldParse opts ctx.method = true →
      bodyPreset ctx.body = false →
      chooseFormat opts ctx.ctype = some fmt →
      blobOf opts ctx = .ok blob →
      parseLimit (limitOf opts fmt) = .ok lim →
      sizeExceeds blob.size lim = true →
      (hoaBodyParser opts jp ctx).nextCalled = true ∧
        (hoaBodyParser opts jp ctx).ctx.body = .val .undef ∧
        (hoaBodyParser opts jp ctx).thrown = none) ∧
    (∀ (opts : Options) (f : Err → Ctx → Ctx)
        (jp : String → Except String Json) (ctx : Ctx) (blob : Blob)
        (lim : ByteLim) (msg : String),
      opts.onError = some f →
      methodShouldParse opts ctx.method = true →
      bodyPreset ctx.body = false →
      chooseFormat opts ctx.ctype = some .json →
      blobOf opts ctx = .ok blob →
      parseLimit opts.jsonLimit = .ok lim →
      sizeExceeds blob.size lim = false →
      jp blob.text = .error msg →
      (hoaBodyParser opts jp ctx).nextCalled = true ∧
        (hoaBodyParser opts jp ctx).ctx.body = .val .undef ∧
        (hoaBodyParser opts jp ctx).thrown = none) := by
  refine ⟨?_, ?_, ?_⟩
  · intro opts f jp ctx fmt emsg hcb hm hp hcf hb
    simp [hoaBodyParser, hm, hp, hcf, hb, throwOrHandle, hcb]
  · intro opts f jp ctx fmt blob lim hcb hm hp hcf hb hL hs
    simp [hoaBodyParser, hm, hp, hcf, hb, decodeAs_oversize hL hs,
      throwOrHandle, handledOr, hcb]
  · intro opts f jp ctx blob lim msg hcb hm hp hcf hb hL hs hj
    simp [hoaBodyParser, hm, hp, hcf, hb, decodeAs_jsonError hL hs hj,
      throwOrHandle, handledOr, hcb]

/-- C9 witness: with the identity callback, a failed read returns without
next() and without raising. -/
theorem c9_continuation_witness :
    (hoaBodyParser optsCb jpStub ctxReadFail).nextCalled = false ∧
      (hoaBodyParser optsCb jpStub ctxReadFail).thrown = none :=
  c9_continuation.1 optsCb cbId jpStub ctxReadFail .json
    "Body has already been consumed" rfl rfl rfl rfl rfl

/-- C4 (amended): oversize, JSON-syntax and body-read errors go through the
single funnel — with no callback the middleware raises the abort with
status 413 for oversize and 400 for malformed JSON and for a failed read,
carrying the message of the error and the error itself as cause; with a
callback configured the callback receives exactly that error and nothing
is raised.  An unparseable limit bypasses the funnel: it escapes as an
uncaught plain error, with no status, and the callback never sees it. -/
theorem c4_errorFunnel :
    (∀ (opts : Options) (jp : String → Except String Json) (ctx : Ctx)
        (fmt : Format) (blob : Blob) (lim : ByteLim),
      opts.onError = none →
      methodShouldParse opts ctx.method = true →
      bodyPreset ctx.body = false →
      chooseFormat opts ctx.ctype = some fmt →
      blobOf opts ctx = .ok blob →
      parseLimit (limitOf opts fmt) = .ok lim →
      sizeExceeds blob.size lim = true →
      (hoaBodyParser opts jp ctx).thrown =
          some (.ctxThrow 413 (oversizeMsg fmt)
            ⟨.oversize, oversizeMsg fmt⟩) ∧
        (hoaBodyParser opts jp ctx).onErrorCalls = []) ∧
    (∀ (opts : Options) (jp : String → Except String Json) (ctx : Ctx)
        (blob : Blob) (lim : ByteLim) (msg : String),
      opts.onError = none →
      methodShouldParse opts ctx.method = true →
      bodyPreset ctx.body = false →
      chooseFormat opts ctx.ctype = some .json →
      blobOf opts ctx = .ok blob →
      parseLimit opts.jsonLimit = .ok lim →
      sizeExceeds blob.size lim = false →
      jp blob.text = .error msg →
      (hoaBodyParser opts jp ctx).thrown =
          some (.ctxThrow 400 msg ⟨.jsonSyntax, msg⟩) ∧
        (hoaBodyParser opts jp ctx).onErrorCalls = []) ∧
    (∀ (opts : Options) (jp : String → Except String Json) (ctx : Ctx)
        (fmt : Format) (emsg : String),
      opts.onError = none →
      methodShouldParse opts ctx.method = true →
      bodyPreset ctx.body = false →
      chooseFormat opts ctx.ctype = some fmt →
      blobOf opts ctx = .error emsg →
      (hoaBodyParser opts jp ctx).thrown =
          some (.ctxThrow 400 emsg ⟨.readErr, emsg⟩) ∧
        (hoaBodyParser opts jp ctx).onErrorCalls = []) ∧
    (∀ (opts : Options) (f : Err → Ctx → Ctx)
        (jp : String → Except String Json) (ctx : Ctx) (fmt : Format)
        (blob : Blob) (lim : ByteLim),
      opts.onError = some f →
      methodShouldParse opts ctx.method = true →
      bodyPreset ctx.body = false →
      chooseFormat opts ctx.ctype = some fmt →
      blobOf opts ctx = .ok blob →
      parseLimit (limitOf opts fmt) = .ok lim →
      sizeExceeds blob.size lim = true →
      (hoaBodyParser opts jp ctx).onErrorCalls =
          [⟨.oversize, oversizeMsg fmt⟩] ∧
        (hoaBodyParser opts jp ctx).thrown = none) ∧
    (∀ (opts : Options) (f : Err → Ctx → Ctx)
        (jp : String → Except String Json) (ctx : Ctx) (blob : Blob)
        (lim : ByteLim) (msg : String),
      opts.onError = some f →
      methodShouldParse opts ctx.method = true →
      bodyPreset ctx.body = false →
      chooseFormat opts ctx.ctype = some .json →
      blobOf opts ctx = .ok blob →
      parseLimit opts.jsonLimit = .ok lim →
      sizeExceeds blob.size lim = false →
      jp blob.text = .error msg →
      (hoaBodyParser opts jp ctx).onErrorCalls = [⟨.jsonSyntax, msg⟩] ∧
        (hoaBodyParser opts jp ctx).thrown = none) ∧
    (∀ (opts : Options) (f : Err → Ctx → Ctx)
        (jp : String → Except String Json) (ctx : Ctx) (fmt : Format)
        (emsg : String),
      opts.onError = some f →
      methodShouldParse opts ctx.method = true →
      bodyPreset ctx.body = false →
      chooseFormat opts ctx.ctype = some fmt →
      blobOf opts ctx = .error emsg →
      (hoaBodyParser opts jp ctx).onErrorCalls = [⟨.readErr, emsg⟩] ∧
        (hoaBodyParser opts jp ctx).thrown = none) ∧
    (∀ (opts : Options) (jp : String → Except String Json) (ctx : Ctx)
        (fmt : Format) (blob : Blob) (e : Err),
      methodShouldParse opts ctx.method = true →
      bodyPreset ctx.body = false →
      chooseFormat opts ctx.ctype = some fmt →
      blobOf opts ctx = .ok blob →
      parseLimit (limitOf opts fmt) = .error e →
      (hoaBodyParser opts jp ctx).thrown = some (.uncaught e) ∧
        (hoaBodyParser opts jp ctx).onErrorCalls = []) := by
  refine ⟨?_, ?_, ?_, ?_, ?_, ?_, ?_⟩
  · intro opts jp ctx fmt blob lim hcb hm hp hcf hb hL hs
    simp [hoaBodyParser, hm, hp, hcf, hb, decodeAs_oversize hL hs,
      throwOrHandle, handledOr, hcb]
  · intro opts jp ctx blob lim msg hcb hm hp hcf hb hL hs hj
    simp [hoaBodyParser, hm, hp, hcf, hb, decodeAs_jsonError hL hs hj,
      throwOrHandle, handledOr, hcb]
  · intro opts jp ctx fmt emsg hcb hm hp hcf hb
    simp [hoaBodyParser, hm, hp, hcf, hb, throwOrHandle, hcb]
  · intro opts f jp ctx fmt blob lim hcb hm hp hcf hb hL hs
    simp [hoaBodyParser, hm, hp, hcf, hb, decodeAs_oversize hL hs,
      throwOrHandle, handledOr, hcb]
  · intro opts f jp ctx blob lim msg hcb hm hp hcf hb hL hs hj
    simp [hoaBodyParser, hm, hp, hcf, hb, decodeAs_jsonError hL hs hj,
      throwOrHandle, handledOr, hcb]
  · intro opts f jp ctx fmt emsg hcb hm hp hcf hb
    simp [hoaBodyParser, hm, hp, hcf, hb, throwOrHandle, hcb]
  · intro opts jp ctx fmt blob e hm hp hcf hb hL
    simp [hoaBodyParser, hm, hp, hcf, hb, decodeAs_limitError hL]

/-- C4 witness: with no callback, the failed read aborts with status 400,
the message and the read error as cause, and no callback call. -/
theorem c4_errorFunnel_witness :
    (hoaBodyParser defaults jpStub ctxReadFail).thrown =
        some (.ctxThrow 400 "Body has already been consumed"
          ⟨.readErr, "Body has already been consumed"⟩) ∧
      (hoaBodyParser defaults jpStub ctxReadFail).onErrorCalls = [] :=
  c4_errorFunnel.2.2.1 defaults jpStub ctxReadFail .json
    "Body has already been consumed" rfl rfl rfl rfl rfl

/-- C4 counterexample: with a callback configured and an unparseable json
limit, the run raises an uncaught error and the callback receives nothing —
so the invalid-limit error does not go through the claimed funnel. -/
theorem c4_errorFunnel_counterexample :
    (hoaBodyParser optsBadLimit jpStub ctxInvalidJson).thrown =
        some (.uncaught ⟨.invalidLimit, "Invalid limit: not-a-valid-limit"⟩) ∧
      (hoaBodyParser optsBadLimit jpStub ctxInvalidJson).onErrorCalls = [] :=
  ⟨rfl, rfl⟩

/-- C8 witness: the dispatch and the precedence search agree on the default
configuration and the json content-type. -/
theorem c8_precedence_witness :
    chooseFormat defaults "application/json" =
      specFirstMatch defaults "application/json" :=
  c8_precedence defaults "application/json"

/-- C10 witness: a key that was never parsed reads back as absent on a
concrete mapping. -/
theorem c10_prototype_witness :
    lookupFV (aggregate [("a", "1")]) "b" = none ↔
      "b" ∉ [("a", "1")].map Prod.fst :=
  c10_prototype.1 [("a", "1")] "b"

end Bodyparser
